import Mathlib

/-!
Verification development for the PuzzleFinder pipeline of the
Sudoku-Solver-AR repository (src/src/PuzzleFinder.cpp) and the cached
sudoku solver (CachedPuzzleSolver.cpp).

The C++ code is shallowly embedded as follows.

* The accumulator image is a width x height buffer of 3-byte pixels whose
  first two bytes hold a little-endian unsigned 16-bit vote count.  The
  byte buffer becomes a `List Nat`; the decode of a pixel mirrors the
  little-endian `reinterpret_cast<const unsigned short*>` read.
* Integer-only stages (vote decoding, the global maximum, the 3/4
  threshold with its early return, the sliding-window peak test and the
  bit-pattern subset machinery) are computable functions on `Nat`/`Int`;
  `float` arithmetic on pixel counts is idealised as exact arithmetic.
* The geometric stages are generic over a `LinearOrderedField` (with a
  `FloorRing` where `fmodf` is used), so that theorems cover the real
  instantiation (with `Real.pi`, `Real.cos`, ...) while concrete
  counterexamples evaluate inside `ℚ`.  The top-level
  `PuzzleFinder.Find` is the `ℝ` instantiation.
* `MeanTheta`, `DifferenceTheta` and `IntersectLines` are declared in
  repository files that are not part of src/ (geometry utilities); where
  needed they are modelled from the spec, and the purely structural
  theorems are stated for an arbitrary such function.
-/

set_option linter.unusedVariables false
set_option maxRecDepth 100000

/-- The accumulator image (Image.h): `width * height` pixels, 3 bytes per
pixel, row-major.  `data` is the raw byte buffer (each entry a byte). -/
structure Image where
  width : Nat
  height : Nat
  data : List Nat
deriving DecidableEq

/-- Little-endian decode of the vote count of pixel `i`, mirroring
`*reinterpret_cast<const unsigned short*>(&houghTransformFrame.data[index])`
with `index = i * 3` on a little-endian machine (spec section 6: first two
bytes little-endian unsigned 16-bit magnitude). -/
def Image.decode (img : Image) (i : Nat) : Nat :=
  img.data.getD (i * 3) 0 + 256 * img.data.getD (i * 3 + 1) 0

/-- The maximum vote value over the whole accumulator
(PuzzleFinder.cpp lines 41-47: a running `std::max` starting from 0 over
`x < width * height`). -/
def maximumValue (img : Image) : Nat :=
  (List.range (img.width * img.height)).foldl (fun m x => max m (img.decode x)) 0

/-- The minimum accepted peak value (line 48):
`maximumValue * 3 / 4` in integer arithmetic. -/
def minimumValue (img : Image) : Nat :=
  maximumValue img * 3 / 4

/-- C `lround` for a non-negative argument: round half away from zero,
which for `0 ≤ q` is `⌊q + 1/2⌋`.  (Only ever applied to non-negative
quantities here.) -/
def lroundQ (q : ℚ) : ℤ :=
  ⌊q + 1 / 2⌋

/-- The sliding-window radius (line 37):
`std::min(1l, std::lround(max(width, height) / 96.0f))`.
Note the source really takes `min`, not `max`. -/
def radiusOf (img : Image) : ℤ :=
  min 1 (lroundQ (((max img.width img.height : ℕ) : ℚ) / 96))

/-- The bounds-checked vote read (lines 52-59): out-of-range coordinates
read as 0. -/
def ExtractValue (img : Image) (x y : Nat) : Nat :=
  if img.width ≤ x ∨ img.height ≤ y then 0
  else img.decode (y * img.width + x)

/-- `ExtractValue` after the C code's cast of `int` coordinates to
`unsigned int` (lines 77-78): a negative coordinate wraps far outside any
realistic image, so the bounds check reads 0.  (Modelled directly as
"negative means out of bounds"; faithful for widths below 2^32 minus the
radius.) -/
def ExtractValueZ (img : Image) (x y : ℤ) : Nat :=
  if x < 0 ∨ y < 0 then 0 else ExtractValue img x.toNat y.toNat

/-- The neighbour offsets `-radius, ..., radius` of the sliding window
(lines 70-72: `for(ny = -radius; ny < radius + 1; ...)`). -/
def offsetRange (r : ℤ) : List ℤ :=
  (List.range (2 * r + 1).toNat).map fun (i : ℕ) => -r + (i : ℤ)

/-- The peak test of lines 69-84 with window radius `r`: `(x, y)` is a
peak when no neighbour within the window (the pixel itself excluded) has
a strictly greater vote; the loop clears `peak` exactly when
`value < ExtractValue(...)`. -/
def isPeakAt (img : Image) (r : ℤ) (x y : Nat) : Bool :=
  let v := ExtractValue img x y
  (offsetRange r).all fun ny =>
    (offsetRange r).all fun nx =>
      (nx == 0 && ny == 0) ||
        decide (ExtractValueZ img ((x : ℤ) + nx) ((y : ℤ) + ny) ≤ v)

/-- The pixels that pass the minimum-value gate (line 66:
`if (value < minimumValue) continue;`), in row-major scan order.  When
`minimumValue` is 0 the function of lines 49-50 returns before scanning
anything, so nothing is considered. -/
def consideredPixels (img : Image) : List (Nat × Nat) :=
  if minimumValue img = 0 then []
  else
    (List.range img.height).flatMap fun y =>
      (List.range img.width).filterMap fun x =>
        if minimumValue img ≤ ExtractValue img x y then some (x, y) else none

/-- The pixels converted into lines (lines 61-105) for window radius `r`:
those that pass the minimum-value gate and the peak test, in row-major
scan order, with the early return of lines 49-50 when `minimumValue`
is 0. -/
def peakPixelsWith (img : Image) (r : ℤ) : List (Nat × Nat) :=
  if minimumValue img = 0 then []
  else
    (List.range img.height).flatMap fun y =>
      (List.range img.width).filterMap fun x =>
        if minimumValue img ≤ ExtractValue img x y ∧ isPeakAt img r x y then
          some (x, y)
        else none

/-- The pixels converted into lines, at the radius the code computes on
line 37. -/
def peakPixels (img : Image) : List (Nat × Nat) :=
  peakPixelsWith img (radiusOf img)

/-- The 32-bit population count of lines 200-204 (`__builtin_popcount`). -/
def popCount32 (x : Nat) : Nat :=
  (List.range 32).countP fun i => x.testBit i

/-- `GetSetBitIndexes` (lines 176-187): the indexes of the lowest four set
bits of `x`, in ascending order. -/
def getSetBitIndexes (x : Nat) : List Nat :=
  ((List.range 32).filter fun i => x.testBit i).take 4

/-! ## Lines and the generic geometric stages -/

/-- Hesse-normal-form line (PuzzleFinder.h): angle `theta` and
perpendicular distance `rho`. -/
structure Line (α : Type) where
  theta : α
  rho : α
deriving DecidableEq

/-- A 2-D point (PuzzleFinder.h). -/
structure Point (α : Type) where
  x : α
  y : α
deriving DecidableEq

/-- The zero line, used as the junk default of list reads that the C++
code performs by raw indexing (those reads are all in bounds, which the
theorems below establish where it matters). -/
def defaultLine (α : Type) [Zero α] : Line α :=
  { theta := 0, rho := 0 }

/-- C `fmodf a b` for a non-negative dividend: `a - b * ⌊a / b⌋`.  The
code only applies it with `0 ≤ a` (angles), where truncation and floor
agree. -/
def fmodF {α : Type} [LinearOrderedField α] [FloorRing α] (a b : α) : α :=
  a - b * ⌊a / b⌋

/-- The angle-flipped twin built on line 138: theta rotated by pi
(mod 2 pi) and rho negated. -/
def twinLine {α : Type} [LinearOrderedField α] [FloorRing α] (pi : α) (l : Line α) :
    Line α :=
  { theta := fmodF (l.theta + pi) (2 * pi), rho := l.rho * -1 }

/-- Modelled from the spec: `MeanTheta` lives in the repository's
geometry utilities, which are not among the staged sources.  Spec
section 4.2: the arithmetic mean of the members' thetas, with no
circular-wraparound correction. -/
def MeanTheta {α : Type} [LinearOrderedField α] (cluster : List (Line α)) : α :=
  (cluster.map Line.theta).sum / cluster.length

/-- One step of `ClusterizeLinesByTheta` (lines 117-147): scan the
clusters in creation order; the first cluster whose mean theta is within
`pi / 12` of the line's theta (or of the twin's theta, in which case the
twin is appended instead) receives the line; otherwise a new singleton
cluster is appended at the end.  `diffT` is the external
`DifferenceTheta` utility. -/
def addLineToClusters {α : Type} [LinearOrderedField α] [FloorRing α]
    (diffT : α → α → α) (pi : α) :
    List (List (Line α)) → Line α → List (List (Line α))
  | [], l => [[l]]
  | c :: rest, l =>
    if diffT l.theta (MeanTheta c) < pi / 12 then (c ++ [l]) :: rest
    else if diffT (twinLine pi l).theta (MeanTheta c) < pi / 12 then
      (c ++ [twinLine pi l]) :: rest
    else c :: addLineToClusters diffT pi rest l

/-- `ClusterizeLinesByTheta` (lines 108-148): single pass over the input
lines, each appended to the first matching cluster or to a fresh
singleton cluster. -/
def ClusterizeLinesByTheta {α : Type} [LinearOrderedField α] [FloorRing α]
    (diffT : α → α → α) (pi : α) (lines : List (Line α)) : List (List (Line α)) :=
  lines.foldl (addLineToClusters diffT pi) []

/-- Insertion of a line into a list sorted by ascending absolute rho
(the comparator of lines 171-173). -/
def insertByAbsRho {α : Type} [LinearOrderedField α] (l : Line α) :
    List (Line α) → List (Line α)
  | [] => [l]
  | m :: rest => if |l.rho| < |m.rho| then l :: m :: rest else m :: insertByAbsRho l rest

/-- The sort of lines 169-174 (`std::sort` by ascending `fabsf(rho)`),
modelled as a stable insertion sort; `std::sort` leaves the order of
equal keys unspecified. -/
def sortByAbsRho {α : Type} [LinearOrderedField α] (cluster : List (Line α)) :
    List (Line α) :=
  cluster.foldr insertByAbsRho []

/-- The `i`-th (0-based) of the four lines a bit pattern `x` selects from
the sorted cluster (lines 208-214). -/
def lineOfBit {α : Type} [LinearOrderedField α] (sorted : List (Line α))
    (x i : Nat) : Line α :=
  sorted.getD ((getSetBitIndexes x).getD i 0) (defaultLine α)

/-- The rho span `line3.rho - line0.rho` of the combination a pattern
selects (line 216). -/
def rangeOfPattern {α : Type} [LinearOrderedField α] (sorted : List (Line α))
    (x : Nat) : α :=
  (lineOfBit sorted x 3).rho - (lineOfBit sorted x 0).rho

/-- One iteration of the subset scan of lines 198-232, acting on the
state `(largestEvenlySpacedLinesRange, largestEvenlySpacedLines)`: skip
patterns without exactly 4 set bits, skip combinations whose range is
below the running best, and accept a combination exactly when each of
the three consecutive rho gaps is within 15 of `range / 3`. -/
def stepEvenly {α : Type} [LinearOrderedField α] (sorted : List (Line α))
    (s : α × List (Line α)) (x : Nat) : α × List (Line α) :=
  if popCount32 x ≠ 4 then s
  else
    let line0 := lineOfBit sorted x 0
    let line1 := lineOfBit sorted x 1
    let line2 := lineOfBit sorted x 2
    let line3 := lineOfBit sorted x 3
    let range := line3.rho - line0.rho
    if range < s.1 then s
    else
      let mean := range / 3
      if |line1.rho - line0.rho - mean| < 15 ∧ |line2.rho - line1.rho - mean| < 15 ∧
          |line3.rho - line2.rho - mean| < 15 then
        (range, [line0, line1, line2, line3])
      else s

/-- `0b1111 << (n - 4)`, the last subset pattern scanned (line 197). -/
def finalSubset (n : Nat) : Nat :=
  15 <<< (n - 4)

/-- The widest evenly spaced 4-line subset of one cluster (lines
195-232): sort by absolute rho, then scan every pattern up to
`finalSubset`, keeping the accepted combination with the largest range
(the scan never lowers the running best). -/
def findEvenlySpaced {α : Type} [LinearOrderedField α] (cluster : List (Line α)) :
    List (Line α) :=
  let sorted := sortByAbsRho cluster
  ((List.range (finalSubset cluster.length + 1)).foldl (stepEvenly sorted) (0, [])).2

/-- `FindPossiblePuzzleLines` (lines 150-237): clusters with fewer than 4
or more than 32 members are skipped; each remaining cluster contributes
its widest evenly spaced 4-line subset when one exists. -/
def FindPossiblePuzzleLines {α : Type} [LinearOrderedField α]
    (lineClusters : List (List (Line α))) : List (List (Line α)) :=
  lineClusters.filterMap fun c =>
    if c.length < 4 then none
    else if 32 < c.length then none
    else
      let r := findEvenlySpaced c
      if r.isEmpty then none else some r

/-- `FindPuzzles` (lines 239-269): every pair of candidate axes whose
thetas are about `pi / 2` apart, the axis with the larger `cosF theta`
first.  `diffT` is the external `DifferenceTheta`, `cosF` the cosine. -/
def FindPuzzles {α : Type} [LinearOrderedField α] (diffT : α → α → α)
    (cosF : α → α) (pi : α) (clusters : List (List (Line α))) :
    List (List (Line α) × List (Line α)) :=
  if clusters.length < 2 then []
  else
    (List.range clusters.length).flatMap fun y =>
      (List.range' (y + 1) (clusters.length - (y + 1))).filterMap fun x =>
        let lines0 := clusters.getD y []
        let lines1 := clusters.getD x []
        let theta0 := (lines0.getD 0 (defaultLine α)).theta
        let theta1 := (lines1.getD 0 (defaultLine α)).theta
        if |pi / 2 - diffT theta0 theta1| < pi / 12 then
          some (if cosF theta0 > cosF theta1 then (lines0, lines1) else (lines1, lines0))
        else none

/-- The conversion of a peak pixel `(x, y)` into a line (lines 88-102):
`theta = x / width * pi`, `rho = (y - height/2) * maxR / (height/2)`,
then the sign normalisation `theta = fmod(theta + pi, 2 pi)`,
`rho *= -1` when rho is negative. -/
def convertPeakG {α : Type} [LinearOrderedField α] [FloorRing α] (pi maxR : α)
    (w h : Nat) (p : Nat × Nat) : Line α :=
  let theta := (p.1 : α) / (w : α) * pi
  let rMultiplier := (h : α) / 2
  let rho := ((p.2 : α) - rMultiplier) * maxR / rMultiplier
  if rho < 0 then { theta := fmodF (theta + pi) (2 * pi), rho := rho * -1 }
  else { theta := theta, rho := rho }

/-- `FindLines` (lines 23-106): the peak pixels of the accumulator, in
scan order, converted to normalised lines.  `hypotF` is C `hypotf`,
applied to the target dimensions (line 92). -/
def FindLinesG {α : Type} [LinearOrderedField α] [FloorRing α] (pi : α)
    (hypotF : Nat → Nat → α) (targetWidth targetHeight : Nat) (img : Image) :
    List (Line α) :=
  (peakPixels img).map
    (convertPeakG pi (hypotF targetWidth targetHeight) img.width img.height)

/-- `PuzzleFinder::Find` (lines 271-309), generic in the numeric carrier
and in the external utilities: run the four stages; on failure return
`false` with the caller's point list untouched; on success clear it and
push the four intersections of the outer lines of the first puzzle, in
the fixed order (axis2 index 0, then 3) crossed with (axis1 index 0,
then 3). -/
def FindG {α : Type} [LinearOrderedField α] [FloorRing α] (diffT : α → α → α)
    (cosF : α → α) (pi : α) (hypotF : Nat → Nat → α)
    (intersectF : Line α → Line α → Point α) (targetWidth targetHeight : Nat)
    (img : Image) (puzzlePoints : List (Point α)) : Bool × List (Point α) :=
  let lines := FindLinesG pi hypotF targetWidth targetHeight img
  let lineClusters := ClusterizeLinesByTheta diffT pi lines
  let possible := FindPossiblePuzzleLines lineClusters
  let puzzles := FindPuzzles diffT cosF pi possible
  match puzzles with
  | [] => (false, puzzlePoints)
  | puzzle :: _ =>
    let puzzleLines1 := puzzle.1
    let puzzleLines2 := puzzle.2
    (true,
      [intersectF (puzzleLines1.getD 0 (defaultLine α)) (puzzleLines2.getD 0 (defaultLine α)),
       intersectF (puzzleLines1.getD 3 (defaultLine α)) (puzzleLines2.getD 0 (defaultLine α)),
       intersectF (puzzleLines1.getD 0 (defaultLine α)) (puzzleLines2.getD 3 (defaultLine α)),
       intersectF (puzzleLines1.getD 3 (defaultLine α)) (puzzleLines2.getD 3 (defaultLine α))])

/-! ## The real instantiation -/

/-- Modelled from the spec: `DifferenceTheta` lives in the repository's
geometry utilities, which are not among the staged sources.  Spec
section 6 specifies a circular angle distance with values in `[0, pi]`:
the distance along the circle between the two angles. -/
noncomputable def circularAngleDistance (a b : ℝ) : ℝ :=
  let d := fmodF |a - b| (2 * Real.pi)
  min d (2 * Real.pi - d)

/-- Modelled from the spec: `IntersectLines` lives in the repository's
geometry utilities, which are not among the staged sources.  Spec
sections 4.5 and 6: the closed-form solution of the two Hesse-normal
equations `x cos theta + y sin theta = rho`. -/
noncomputable def IntersectLines (l1 l2 : Line ℝ) : Point ℝ :=
  let det := Real.cos l1.theta * Real.sin l2.theta - Real.sin l1.theta * Real.cos l2.theta
  { x := (l1.rho * Real.sin l2.theta - l2.rho * Real.sin l1.theta) / det,
    y := (l2.rho * Real.cos l1.theta - l1.rho * Real.cos l2.theta) / det }

/-- C `hypotf` on the target dimensions. -/
noncomputable def hypotR (a b : Nat) : ℝ :=
  Real.sqrt ((a : ℝ) ^ 2 + (b : ℝ) ^ 2)

/-- `FindLines` at the real numbers: the lines the peak extractor
produces. -/
noncomputable def FindLinesR (targetWidth targetHeight : Nat) (img : Image) :
    List (Line ℝ) :=
  FindLinesG Real.pi hypotR targetWidth targetHeight img

/-- `PuzzleFinder::Find` at the real numbers, with the spec-modelled
geometry utilities. -/
noncomputable def PuzzleFinder.Find (targetWidth targetHeight : Nat) (img : Image)
    (puzzlePoints : List (Point ℝ)) : Bool × List (Point ℝ) :=
  FindG circularAngleDistance Real.cos Real.pi hypotR IntersectLines
    targetWidth targetHeight img puzzlePoints

/-! ## The sudoku game and the caching solver -/

/-- The 9 x 9 digit grid (Game.h): `WIDTH = HEIGHT = 9`,
`MAX_VALUE = 9`, `EMPTY_VALUE = 0`, stored row-major.  The grid is
modelled as its intended 81 cells. -/
structure Game where
  state : List Nat
deriving DecidableEq

/-- `Index` of Game.cpp: `y * WIDTH + x`. -/
def gameIndex (x y : Nat) : Nat :=
  y * 9 + x

/-- A cleared game: every cell `EMPTY_VALUE` (Game constructor +
`Game::Clear`). -/
def emptyGame : Game :=
  ⟨List.replicate 81 0⟩

/-- `Game::Set`: reject out-of-range coordinates and values above
`MAX_VALUE` (returning the grid unchanged, as the callers here discard
the boolean), otherwise write the cell. -/
def Game.Set (g : Game) (x y v : Nat) : Game :=
  if 9 ≤ x ∨ 9 ≤ y ∨ 9 < v then g else ⟨g.state.set (gameIndex x y) v⟩

/-- `Game::Get`: `EMPTY_VALUE` for out-of-range coordinates, the cell
otherwise. -/
def Game.Get (g : Game) (x y : Nat) : Nat :=
  if 9 ≤ x ∨ 9 ≤ y then 0 else g.state.getD (gameIndex x y) 0

/-- `DigitsToGame` (CachedPuzzleSolver.cpp lines 19-32): read
`digits[y * 9 + x]` for every cell of the 9 x 9 grid and `Set` it.  The
C++ indexes the vector unconditionally; an index at or beyond
`digits.size()` is an out-of-bounds read, modelled as `none` (undefined
behaviour). -/
def DigitsToGame (digits : List Nat) : Option Game :=
  (List.range 81).foldlM
    (fun g index => (digits[index]?).map fun v => g.Set (index % 9) (index / 9) v)
    emptyGame

/-- `CachedPuzzleSolver::Solve` (lines 40-87).  `Solvable` and the
backtracking `Solve` live in Solve.cpp, which is not among the staged
sources, so they are taken as parameters (`solveFn` returns the solved
grid, or `none` when the backtracking search fails).  The solved-puzzle
cache is an association list from the 81-digit signature to its
solution; the result is `(success, solution output, updated cache)`,
`none` modelling the out-of-bounds read of `DigitsToGame` on a short
input.  Note the C++ calls `DigitsToGame` before any validation. -/
def CachedPuzzleSolver.Solve (solvable : Game → Bool) (solveFn : Game → Option Game)
    (solvedPuzzles : List (List Nat × List Nat)) (digits solution : List Nat) :
    Option (Bool × List Nat × List (List Nat × List Nat)) :=
  match DigitsToGame digits with
  | none => none
  | some game =>
    if digits.length ≠ 81 then some (false, solution, solvedPuzzles)
    else if digits.any fun d => 9 < d then some (false, solution, solvedPuzzles)
    else if ¬ solvable game then some (false, solution, solvedPuzzles)
    else if (digits.countP fun d => 0 < d) < 21 then some (false, solution, solvedPuzzles)
    else
      match List.lookup digits solvedPuzzles with
      | some cached => some (true, cached, solvedPuzzles)
      | none =>
        match solveFn game with
        | none => some (false, solution, solvedPuzzles)
        | some solved =>
          let sol := (List.range 9).flatMap fun y =>
            (List.range 9).map fun x => solved.Get x y
          some (true, sol, (digits, sol) :: solvedPuzzles)

/-! ## Concrete accumulator images used by counterexamples and witnesses -/

/-- A 48 x 1 accumulator whose first two pixels hold equal votes of 10:
two adjacent equal local maxima. -/
def img48 : Image :=
  ⟨48, 1, [10, 0, 0, 10, 0, 0] ++ List.replicate 138 0⟩

/-- A 48 x 1 accumulator with votes 10 at pixel 0 and 7 at pixel 47:
the maximum is 10 and the isolated vote of 7 sits exactly at the integer
threshold `10 * 3 / 4 = 7`, strictly below `0.75 * 10`. -/
def img49 : Image :=
  ⟨48, 1, [10, 0, 0] ++ List.replicate 138 0 ++ [7, 0, 0]⟩

/-- A 1 x 1 accumulator with a single vote of 2: its one pixel is a peak
at `(0, 0)`, which converts to a line with negative raw rho. -/
def img1 : Image :=
  ⟨1, 1, [2, 0, 0]⟩

/-- A 192 x 192 accumulator (the data is irrelevant to the radius). -/
def img192 : Image :=
  ⟨192, 192, []⟩

/-- A 1 x 1 all-zero accumulator. -/
def imgZero : Image :=
  ⟨1, 1, [0, 0, 0]⟩

/-! ## Helper lemmas about the pixel layer -/

theorem lroundQ_natCast_div96 (m : Nat) :
    lroundQ ((m : ℚ) / 96) = ((m + 48) / 96 : ℕ) := by
  unfold lroundQ
  have h : (m : ℚ) / 96 + 1 / 2 = ((m + 48 : ℕ) : ℚ) / ((96 : ℕ) : ℚ) := by
    push_cast
    ring
  rw [h, Rat.floor_natCast_div_natCast]
  exact (Int.ofNat_div _ _).symm

/-- The radius as pure integer arithmetic: rounding `m / 96` half away
from zero is Nat division `(m + 48) / 96`. -/
theorem radiusOf_eq (img : Image) :
    radiusOf img = min 1 (((max img.width img.height + 48) / 96 : ℕ) : ℤ) := by
  rw [radiusOf, lroundQ_natCast_div96]

theorem radiusOf_img48 : radiusOf img48 = 1 := by rw [radiusOf_eq]; decide

theorem radiusOf_img49 : radiusOf img49 = 1 := by rw [radiusOf_eq]; decide

theorem radiusOf_img1 : radiusOf img1 = 0 := by rw [radiusOf_eq]; decide

theorem peakPixels_img48 : peakPixels img48 = [(0, 0), (1, 0)] := by
  rw [peakPixels, radiusOf_img48]; decide

theorem peakPixels_img49 : peakPixels img49 = [(0, 0), (47, 0)] := by
  rw [peakPixels, radiusOf_img49]; decide

theorem peakPixels_img1 : peakPixels img1 = [(0, 0)] := by
  rw [peakPixels, radiusOf_img1]; decide

theorem radiusOf_nonneg (img : Image) : 0 ≤ radiusOf img := by
  rw [radiusOf_eq]
  exact le_min (by norm_num) (Int.natCast_nonneg _)

theorem mem_offsetRange {r k : ℤ} (hr : 0 ≤ r) :
    k ∈ offsetRange r ↔ -r ≤ k ∧ k ≤ r := by
  unfold offsetRange
  constructor
  · intro h
    obtain ⟨i, hi, rfl⟩ := List.mem_map.mp h
    have hi2 := List.mem_range.mp hi
    omega
  · rintro ⟨h1, h2⟩
    apply List.mem_map.mpr
    refine ⟨(k + r).toNat, List.mem_range.mpr ?_, ?_⟩
    · omega
    · omega

theorem minimumValue_eq_zero_iff (img : Image) :
    minimumValue img = 0 ↔ maximumValue img ≤ 1 := by
  unfold minimumValue
  rw [Nat.div_eq_zero_iff (by norm_num)]
  omega

theorem le_minimumValue_iff (img : Image) (v : Nat) :
    minimumValue img ≤ v ↔ 3 * maximumValue img < 4 * (v + 1) := by
  unfold minimumValue
  have h : v + 1 ≤ maximumValue img * 3 / 4 ↔ (v + 1) * 4 ≤ maximumValue img * 3 :=
    Nat.le_div_iff_mul_le (by norm_num)
  omega

theorem mem_peakPixelsWith (img : Image) (r : ℤ) (x y : Nat) :
    (x, y) ∈ peakPixelsWith img r ↔
      minimumValue img ≠ 0 ∧ x < img.width ∧ y < img.height ∧
        minimumValue img ≤ ExtractValue img x y ∧ isPeakAt img r x y = true := by
  unfold peakPixelsWith
  by_cases h : minimumValue img = 0
  · simp [h]
  · simp only [h, if_false, List.mem_flatMap, List.mem_filterMap, List.mem_range]
    constructor
    · rintro ⟨b, hb, a, ha, hsome⟩
      by_cases hc : minimumValue img ≤ ExtractValue img a b ∧ isPeakAt img r a b
      · rw [if_pos hc] at hsome
        obtain ⟨rfl, rfl⟩ := Prod.mk.injEq .. ▸ Option.some.injEq .. ▸ hsome
        exact ⟨h, ha, hb, hc.1, hc.2⟩
      · rw [if_neg hc] at hsome
        exact absurd hsome (by simp)
    · rintro ⟨-, hx, hy, hv, hp⟩
      exact ⟨y, hy, x, hx, by rw [if_pos ⟨hv, hp⟩]⟩

theorem mem_consideredPixels (img : Image) (x y : Nat) :
    (x, y) ∈ consideredPixels img ↔
      minimumValue img ≠ 0 ∧ x < img.width ∧ y < img.height ∧
        minimumValue img ≤ ExtractValue img x y := by
  unfold consideredPixels
  by_cases h : minimumValue img = 0
  · simp [h]
  · simp only [h, if_false, List.mem_flatMap, List.mem_filterMap, List.mem_range]
    constructor
    · rintro ⟨b, hb, a, ha, hsome⟩
      by_cases hc : minimumValue img ≤ ExtractValue img a b
      · rw [if_pos hc] at hsome
        obtain ⟨rfl, rfl⟩ := Prod.mk.injEq .. ▸ Option.some.injEq .. ▸ hsome
        exact ⟨h, ha, hb, hc⟩
      · rw [if_neg hc] at hsome
        exact absurd hsome (by simp)
    · rintro ⟨-, hx, hy, hv⟩
      exact ⟨y, hy, x, hx, by rw [if_pos hv]⟩

theorem isPeakAt_iff (img : Image) (r : ℤ) (x y : Nat) (hr : 0 ≤ r) :
    isPeakAt img r x y = true ↔
      ∀ nx ny : ℤ, -r ≤ nx → nx ≤ r → -r ≤ ny → ny ≤ r → ¬(nx = 0 ∧ ny = 0) →
        ExtractValueZ img ((x : ℤ) + nx) ((y : ℤ) + ny) ≤ ExtractValue img x y := by
  unfold isPeakAt
  simp only [List.all_eq_true, Bool.or_eq_true, Bool.and_eq_true, beq_iff_eq,
    decide_eq_true_eq]
  constructor
  · intro h nx ny h1 h2 h3 h4 h5
    have := h ny ((mem_offsetRange hr).mpr ⟨h3, h4⟩) nx ((mem_offsetRange hr).mpr ⟨h1, h2⟩)
    rcases this with ⟨hx0, hy0⟩ | hle
    · exact absurd ⟨hx0, hy0⟩ h5
    · exact hle
  · intro h ny hny nx hnx
    obtain ⟨h3, h4⟩ := (mem_offsetRange hr).mp hny
    obtain ⟨h1, h2⟩ := (mem_offsetRange hr).mp hnx
    by_cases h5 : nx = 0 ∧ ny = 0
    · exact Or.inl h5
    · exact Or.inr (h nx ny h1 h2 h3 h4 h5)

/-! ## Claims C3, C4, C5: the peak extractor -/

/-- C3 (code_bug evidence): the source computes the neighbourhood radius
with `std::min(1l, lround(max(w, h) / 96.0f))`, not the spec's
`max(1, round(max(w, h) / 96))`: for a 192 x 192 accumulator the code's
radius is 1 while the claimed formula gives 2.  (For any accumulator
whose larger dimension is below 48 the code's radius is even 0,
emptying the sliding window, as `radiusOf_img1` shows.) -/
theorem radius_is_min_not_max :
    radiusOf img192 = 1 ∧
      max 1 (lroundQ (((max img192.width img192.height : ℕ) : ℚ) / 96)) = 2 := by
  constructor
  · rw [radiusOf_eq]; decide
  · rw [lroundQ_natCast_div96]; decide

/-- C4 (counterexample): in `img48` the adjacent pixels `(0,0)` and
`(1,0)` carry the equal maximal vote 10 and the window radius is 1, yet
both are classified as peaks — the code only rejects a pixel when a
neighbour is strictly greater, so a pixel with an equal-valued in-radius
neighbour can still be a peak, contrary to the claim. -/
theorem peak_equal_neighbor_counterexample :
    (0, 0) ∈ peakPixels img48 ∧ (1, 0) ∈ peakPixels img48 ∧
      radiusOf img48 = 1 ∧
      ExtractValueZ img48 ((0 : ℤ) + 1) ((0 : ℤ) + 0) = ExtractValue img48 0 0 ∧
      minimumValue img48 ≤ ExtractValue img48 0 0 :=
  ⟨by rw [peakPixels_img48]; decide, by rw [peakPixels_img48]; decide,
    radiusOf_img48, by decide, by decide⟩

/-- C4 (amended): a pixel at or above the acceptance threshold is kept as
a peak if and only if every neighbour within the square radius, the pixel
itself excluded, has a vote less than or equal to (not strictly smaller
than) the pixel's vote; out-of-bounds neighbours read as vote 0. -/
theorem peak_iff_no_strictly_greater_neighbor (img : Image) (x y : Nat)
    (hx : x < img.width) (hy : y < img.height)
    (hv : minimumValue img ≤ ExtractValue img x y)
    (hm : minimumValue img ≠ 0) :
    ((x, y) ∈ peakPixels img ↔
      ∀ nx ny : ℤ, -radiusOf img ≤ nx → nx ≤ radiusOf img →
        -radiusOf img ≤ ny → ny ≤ radiusOf img → ¬(nx = 0 ∧ ny = 0) →
        ExtractValueZ img ((x : ℤ) + nx) ((y : ℤ) + ny) ≤ ExtractValue img x y) := by
  rw [peakPixels, mem_peakPixelsWith, isPeakAt_iff img _ x y (radiusOf_nonneg img)]
  simp [hx, hy, hv, hm]

/-- C4 witness: the amended characterisation applied to pixel `(0, 0)` of
the concrete image `img48`. -/
theorem peak_iff_no_strictly_greater_neighbor_witness :
    ((0, 0) ∈ peakPixels img48 ↔
      ∀ nx ny : ℤ, -radiusOf img48 ≤ nx → nx ≤ radiusOf img48 →
        -radiusOf img48 ≤ ny → ny ≤ radiusOf img48 → ¬(nx = 0 ∧ ny = 0) →
        ExtractValueZ img48 ((0 : ℤ) + nx) ((0 : ℤ) + ny) ≤ ExtractValue img48 0 0) :=
  peak_iff_no_strictly_greater_neighbor img48 0 0 (by decide) (by decide)
    (by decide) (by decide)

/-- C5 (counterexample): in `img49` the maximum vote is 10, so the
claimed threshold `0.75 * 10 = 7.5` would reject the vote of 7 at pixel
`(47, 0)`; the code's integer threshold `10 * 3 / 4 = 7` accepts it and
the pixel even becomes a peak line. -/
theorem threshold_floor_counterexample :
    (47, 0) ∈ peakPixels img49 ∧ maximumValue img49 = 10 ∧
      ExtractValue img49 47 0 = 7 ∧ ¬ ((3 : ℚ) / 4 * 10 ≤ 7) :=
  ⟨by rw [peakPixels_img49]; decide, by decide, by decide, by norm_num⟩

/-- C5 (amended): the acceptance threshold is the integer
`maximumValue * 3 / 4` — the floor of 0.75 times the maximum — so a pixel
is considered exactly when `3 * V_max < 4 * (vote + 1)`; and the
extractor returns the empty result (rather than an error) whenever that
threshold is 0, which happens exactly when `V_max ≤ 1`, in particular
when the accumulator has no signal at all. -/
theorem threshold_is_integer_three_quarters (img : Image) :
    (maximumValue img ≤ 1 → peakPixels img = []) ∧
    (∀ x y : Nat, (x, y) ∈ consideredPixels img ↔
      x < img.width ∧ y < img.height ∧ 2 ≤ maximumValue img ∧
        3 * maximumValue img < 4 * (ExtractValue img x y + 1)) := by
  constructor
  · intro h
    rw [peakPixels, peakPixelsWith, if_pos ((minimumValue_eq_zero_iff img).mpr h)]
  · intro x y
    rw [mem_consideredPixels, le_minimumValue_iff]
    have h2 : minimumValue img ≠ 0 ↔ 2 ≤ maximumValue img := by
      rw [ne_eq, minimumValue_eq_zero_iff]; omega
    rw [h2]
    tauto

/-! ## Claim C9: the caching solver reads out of bounds -/

theorem digitsToGame_fold_none (digits : List Nat) (l : List Nat) :
    ∀ g : Game, (∃ i ∈ l, digits[i]? = none) →
      l.foldlM (fun g index =>
          (digits[index]?).map fun v => g.Set (index % 9) (index / 9) v) g
        = (none : Option Game) := by
  induction l with
  | nil => rintro g ⟨i, hi, -⟩; exact absurd hi (List.not_mem_nil i)
  | cons a t ih =>
    rintro g ⟨i, hi, hnone⟩
    rw [List.foldlM_cons]
    cases ha : digits[a]? with
    | none => rfl
    | some v =>
      rcases List.mem_cons.mp hi with rfl | hit
      · exact absurd hnone (by rw [ha]; simp)
      · exact ih _ ⟨i, hit, hnone⟩

/-- `DigitsToGame` dereferences all of `digits[0] .. digits[80]` before
any caller validates the length, so a vector with fewer than 81 entries
is read out of bounds (modelled as `none`). -/
theorem digitsToGame_short (digits : List Nat) (h : digits.length < 81) :
    DigitsToGame digits = none := by
  unfold DigitsToGame
  exact digitsToGame_fold_none digits _ emptyGame
    ⟨digits.length, List.mem_range.mpr h, List.getElem?_eq_none (le_refl _)⟩

/-- C9 (code_bug evidence): `CachedPuzzleSolver::Solve` builds the `Game`
from the digit vector before checking `digits.size() != 81`, so any input
with fewer than 81 digits — the empty vector included — is read out of
bounds (undefined behaviour, modelled as `none`) instead of being
rejected with a clean `false`; this holds whatever the external
`Solvable`/`Solve` of Solve.cpp do and whatever the cache holds. -/
theorem cachedSolve_short_input_reads_oob (solvable : Game → Bool)
    (solveFn : Game → Option Game) (solvedPuzzles : List (List Nat × List Nat))
    (digits solution : List Nat) (h : digits.length < 81) :
    CachedPuzzleSolver.Solve solvable solveFn solvedPuzzles digits solution = none := by
  unfold CachedPuzzleSolver.Solve
  rw [digitsToGame_short digits h]

/-- C9 witness: the empty digit vector. -/
theorem cachedSolve_short_input_reads_oob_witness :
    CachedPuzzleSolver.Solve (fun _ => true) (fun _ => none) [] [] [] = none :=
  cachedSolve_short_input_reads_oob (fun _ => true) (fun _ => none) [] [] []
    (by decide)

/-! ## Claim C2: normalisation of stored lines -/

theorem fmodF_eq_self {α : Type} [LinearOrderedField α] [FloorRing α]
    {a b : α} (hb : 0 < b) (h0 : 0 ≤ a) (hab : a < b) : fmodF a b = a := by
  unfold fmodF
  rw [Int.floor_eq_zero_iff.mpr ⟨div_nonneg h0 hb.le, (div_lt_one hb).mpr hab⟩]
  simp

/-- C2 (amended): every line stored by the peak extractor has `rho ≥ 0`
and `theta ∈ [0, 2*pi)`; the raw theta lies in `[0, pi)` and the sign
normalisation of a negative raw rho adds `pi` to it, so normalised lines
land in `[pi, 2*pi)` rather than staying inside the half-turn. -/
theorem findLines_normalization (targetWidth targetHeight : Nat) (img : Image)
    (l : Line ℝ) (hl : l ∈ FindLinesR targetWidth targetHeight img) :
    0 ≤ l.rho ∧ 0 ≤ l.theta ∧ l.theta < 2 * Real.pi := by
  obtain ⟨p, hp, rfl⟩ := List.mem_map.mp hl
  obtain ⟨-, hx, hy, -, -⟩ := (mem_peakPixelsWith img _ p.1 p.2).mp (by
    cases p; exact hp)
  have hw : (0 : ℝ) < (img.width : ℝ) := by exact_mod_cast Nat.pos_of_ne_zero (by omega)
  have hθ0 : (0 : ℝ) ≤ (p.1 : ℝ) / (img.width : ℝ) * Real.pi :=
    mul_nonneg (div_nonneg (Nat.cast_nonneg _) hw.le) Real.pi_pos.le
  have hθπ : (p.1 : ℝ) / (img.width : ℝ) * Real.pi < Real.pi := by
    have h1 : (p.1 : ℝ) / (img.width : ℝ) < 1 := (div_lt_one hw).mpr (by exact_mod_cast hx)
    exact mul_lt_of_lt_one_left Real.pi_pos h1
  unfold convertPeakG
  set θ := (p.1 : ℝ) / (img.width : ℝ) * Real.pi with hθ
  set ρ := ((p.2 : ℝ) - (img.height : ℝ) / 2) * hypotR targetWidth targetHeight /
    ((img.height : ℝ) / 2) with hρ
  by_cases hneg : ρ < 0
  · rw [if_pos hneg]
    have hmod : fmodF (θ + Real.pi) (2 * Real.pi) = θ + Real.pi :=
      fmodF_eq_self (by positivity) (by linarith) (by linarith)
    refine ⟨by simpa using (by linarith : 0 ≤ -ρ), ?_, ?_⟩
    · simp only [hmod]; linarith
    · simp only [hmod]; linarith
  · rw [if_neg hneg]
    exact ⟨le_of_not_lt hneg, hθ0, by linarith⟩

/-- The single line the extractor produces on `img1`. -/
theorem findLinesR_img1 :
    FindLinesR 3 4 img1 = [convertPeakG Real.pi (hypotR 3 4) 1 1 (0, 0)] := by
  rw [FindLinesR, FindLinesG, peakPixels_img1]
  rfl

/-- C2 (counterexample): the peak `(0, 0)` of the 1 x 1 accumulator
`img1` has raw theta 0 and negative raw rho, and its stored theta is
exactly `pi` — not inside `[0, pi)` as the claim states. -/
theorem findLines_theta_at_pi_counterexample :
    ∃ l ∈ FindLinesR 3 4 img1, ¬ l.theta < Real.pi := by
  have hmaxR : (0 : ℝ) < hypotR 3 4 := by
    unfold hypotR
    exact Real.sqrt_pos.mpr (by norm_num)
  have hρ : ((0 : ℕ) : ℝ) * (((1 : ℕ) : ℝ) / 2)⁻¹ = 0 := by norm_num
  refine ⟨convertPeakG Real.pi (hypotR 3 4) 1 1 (0, 0), by rw [findLinesR_img1]; exact List.mem_singleton_self _, ?_⟩
  have hθ : (((0, 0) : Nat × Nat).1 : ℝ) / (((1 : Nat) : ℝ)) * Real.pi = 0 := by
    norm_num
  have hneg : ((((0, 0) : Nat × Nat).2 : ℝ) - ((1 : Nat) : ℝ) / 2) * hypotR 3 4 /
      (((1 : Nat) : ℝ) / 2) < 0 := by
    have : ((((0, 0) : Nat × Nat).2 : ℝ) - ((1 : Nat) : ℝ) / 2) = -(1 / 2) := by norm_num
    rw [this]
    have h2 : (0 : ℝ) < ((1 : Nat) : ℝ) / 2 := by norm_num
    exact div_neg_of_neg_of_pos (by nlinarith) h2
  unfold convertPeakG
  rw [if_pos hneg]
  have hmod : fmodF ((((0, 0) : Nat × Nat).1 : ℝ) / (((1 : Nat) : ℝ)) * Real.pi + Real.pi)
      (2 * Real.pi) = Real.pi := by
    rw [hθ, zero_add]
    exact fmodF_eq_self (by positivity) Real.pi_pos.le (by linarith [Real.pi_pos])
  simp only [hmod]
  exact lt_irrefl _

/-- C2 witness: the amended normalisation bounds at the concrete line of
`img1`. -/
theorem findLines_normalization_witness :
    0 ≤ (convertPeakG Real.pi (hypotR 3 4) 1 1 (0, 0)).rho ∧
      0 ≤ (convertPeakG Real.pi (hypotR 3 4) 1 1 (0, 0)).theta ∧
      (convertPeakG Real.pi (hypotR 3 4) 1 1 (0, 0)).theta < 2 * Real.pi :=
  findLines_normalization 3 4 img1 _ (by rw [findLinesR_img1]; exact List.mem_singleton_self _)

/-! ## Claims C1 and C10: the top-level contract of Find -/

/-- An accumulator with no signal: every pixel decodes to vote 0. -/
def allZeroImage (img : Image) : Prop :=
  ∀ i < img.width * img.height, img.decode i = 0

theorem foldl_max_of_all_zero (f : Nat → Nat) (l : List Nat) :
    ∀ acc, (∀ x ∈ l, f x = 0) → l.foldl (fun m x => max m (f x)) acc = acc := by
  induction l with
  | nil => intro acc h; rfl
  | cons a t ih =>
    intro acc h
    rw [List.foldl_cons, h a (List.mem_cons_self a t), Nat.max_zero]
    exact ih acc fun x hx => h x (List.mem_cons_of_mem a hx)

theorem maximumValue_of_allZero (img : Image) (h : allZeroImage img) :
    maximumValue img = 0 := by
  unfold maximumValue
  exact foldl_max_of_all_zero _ _ 0 fun x hx => h x (List.mem_range.mp hx)

theorem peakPixels_of_allZero (img : Image) (h : allZeroImage img) :
    peakPixels img = [] := by
  rw [peakPixels, peakPixelsWith,
    if_pos (by rw [minimumValue, maximumValue_of_allZero img h])]

theorem findPuzzles_of_short {α : Type} [LinearOrderedField α] (diffT : α → α → α)
    (cosF : α → α) (pi : α) (clusters : List (List (Line α)))
    (h : clusters.length < 2) : FindPuzzles diffT cosF pi clusters = [] := by
  rw [FindPuzzles, if_pos h]

/-- Unfolding of `FindG` when the puzzle list is empty: failure, with the
caller's points untouched. -/
theorem findG_puzzles_nil {α : Type} [LinearOrderedField α] [FloorRing α]
    (diffT : α → α → α) (cosF : α → α) (pi : α) (hypotF : Nat → Nat → α)
    (intersectF : Line α → Line α → Point α) (targetWidth targetHeight : Nat)
    (img : Image) (pts : List (Point α))
    (h : FindPuzzles diffT cosF pi (FindPossiblePuzzleLines
      (ClusterizeLinesByTheta diffT pi (FindLinesG pi hypotF targetWidth targetHeight img))) = []) :
    FindG diffT cosF pi hypotF intersectF targetWidth targetHeight img pts = (false, pts) := by
  simp only [FindG]
  rw [h]

/-- Unfolding of `FindG` when the puzzle list is nonempty: success, with
the four corner intersections of the first puzzle in the fixed order. -/
theorem findG_puzzles_cons {α : Type} [LinearOrderedField α] [FloorRing α]
    (diffT : α → α → α) (cosF : α → α) (pi : α) (hypotF : Nat → Nat → α)
    (intersectF : Line α → Line α → Point α) (targetWidth targetHeight : Nat)
    (img : Image) (pts : List (Point α)) (axes : List (Line α) × List (Line α))
    (rest : List (List (Line α) × List (Line α)))
    (h : FindPuzzles diffT cosF pi (FindPossiblePuzzleLines
      (ClusterizeLinesByTheta diffT pi (FindLinesG pi hypotF targetWidth targetHeight img))) = axes :: rest) :
    FindG diffT cosF pi hypotF intersectF targetWidth targetHeight img pts =
      (true,
        [intersectF (axes.1.getD 0 (defaultLine α)) (axes.2.getD 0 (defaultLine α)),
         intersectF (axes.1.getD 3 (defaultLine α)) (axes.2.getD 0 (defaultLine α)),
         intersectF (axes.1.getD 0 (defaultLine α)) (axes.2.getD 3 (defaultLine α)),
         intersectF (axes.1.getD 3 (defaultLine α)) (axes.2.getD 3 (defaultLine α))]) := by
  simp only [FindG]
  rw [h]

theorem findG_of_allZero {α : Type} [LinearOrderedField α] [FloorRing α]
    (diffT : α → α → α) (cosF : α → α) (pi : α) (hypotF : Nat → Nat → α)
    (intersectF : Line α → Line α → Point α) (targetWidth targetHeight : Nat)
    (img : Image) (pts : List (Point α)) (h : allZeroImage img) :
    FindG diffT cosF pi hypotF intersectF targetWidth targetHeight img pts = (false, pts) := by
  apply findG_puzzles_nil
  rw [FindLinesG, peakPixels_of_allZero img h]
  exact findPuzzles_of_short _ _ _ _ (by simp [ClusterizeLinesByTheta, FindPossiblePuzzleLines])

instance allZeroImageDec (img : Image) : Decidable (allZeroImage img) :=
  inferInstanceAs (Decidable (∀ i < img.width * img.height, img.decode i = 0))

/-- C10: whenever `Find` returns false it hands back the caller's point
list exactly as it was — `puzzlePoints.clear()` and the corner pushes
happen only on the success path (lines 296-306, after the emptiness
check of line 285). -/
theorem find_false_leaves_points_unchanged (targetWidth targetHeight : Nat)
    (img : Image) (pts res : List (Point ℝ))
    (h : PuzzleFinder.Find targetWidth targetHeight img pts = (false, res)) :
    res = pts := by
  rcases hpz : FindPuzzles circularAngleDistance Real.cos Real.pi
      (FindPossiblePuzzleLines (ClusterizeLinesByTheta circularAngleDistance Real.pi
        (FindLinesG Real.pi hypotR targetWidth targetHeight img))) with _ | ⟨axes, rest⟩
  · rw [PuzzleFinder.Find, findG_puzzles_nil _ _ _ _ _ _ _ _ _ hpz] at h
    exact (Prod.mk.injEq .. ▸ h).2.symm
  · rw [PuzzleFinder.Find, findG_puzzles_cons _ _ _ _ _ _ _ _ _ _ _ hpz] at h
    exact absurd (Prod.mk.injEq .. ▸ h).1 (by simp)

/-- C10 witness: on an all-zero accumulator `Find` fails and returns the
caller's list `[(5, 6)]` unchanged. -/
theorem find_false_leaves_points_unchanged_witness :
    PuzzleFinder.Find 1 1 imgZero [⟨5, 6⟩] = (false, [⟨5, 6⟩]) ∧
      ([⟨5, 6⟩] : List (Point ℝ)) = [⟨5, 6⟩] := by
  have h : PuzzleFinder.Find 1 1 imgZero [⟨5, 6⟩] = (false, [⟨5, 6⟩]) :=
    findG_of_allZero _ _ _ _ _ 1 1 imgZero _ (by decide)
  exact ⟨h, find_false_leaves_points_unchanged 1 1 imgZero _ _ h⟩

theorem stepEvenly_snd {α : Type} [LinearOrderedField α] (sorted : List (Line α))
    (s : α × List (Line α)) (x : Nat) :
    (stepEvenly sorted s x).2 = s.2 ∨ (stepEvenly sorted s x).2.length = 4 := by
  unfold stepEvenly
  by_cases h1 : popCount32 x ≠ 4
  · rw [if_pos h1]; exact Or.inl rfl
  · rw [if_neg h1]
    dsimp only
    split_ifs with h2 h3
    · exact Or.inl rfl
    · exact Or.inr rfl
    · exact Or.inl rfl

theorem foldl_stepEvenly_snd {α : Type} [LinearOrderedField α] (sorted : List (Line α))
    (l : List Nat) : ∀ s : α × List (Line α), s.2 = [] ∨ s.2.length = 4 →
      (l.foldl (stepEvenly sorted) s).2 = [] ∨ (l.foldl (stepEvenly sorted) s).2.length = 4 := by
  induction l with
  | nil => intro s hs; exact hs
  | cons a t ih =>
    intro s hs
    rw [List.foldl_cons]
    refine ih _ ?_
    rcases stepEvenly_snd sorted s a with h | h
    · rw [h]; exact hs
    · exact Or.inr h

theorem findEvenlySpaced_nil_or_four {α : Type} [LinearOrderedField α]
    (c : List (Line α)) :
    findEvenlySpaced c = [] ∨ (findEvenlySpaced c).length = 4 := by
  unfold findEvenlySpaced
  exact foldl_stepEvenly_snd _ _ (0, []) (Or.inl rfl)

theorem length_of_mem_findPossiblePuzzleLines {α : Type} [LinearOrderedField α]
    (clusters : List (List (Line α))) (r : List (Line α))
    (h : r ∈ FindPossiblePuzzleLines clusters) : r.length = 4 := by
  unfold FindPossiblePuzzleLines at h
  obtain ⟨c, hc, hsome⟩ := List.mem_filterMap.mp h
  simp only at hsome
  split_ifs at hsome with h1 h2 h3
  obtain rfl := Option.some.inj hsome
  rcases findEvenlySpaced_nil_or_four c with h4 | h4
  · rw [h4] at h3; exact absurd rfl h3
  · exact h4

/-- Structure of any pair `FindPuzzles` emits: both components are
members of the candidate list, and the pair is ordered by the cosine
comparison of line 262. -/
theorem mem_findPuzzles_cases {α : Type} [LinearOrderedField α]
    (diffT : α → α → α) (cosF : α → α) (pi : α)
    (clusters : List (List (Line α))) (p : List (Line α) × List (Line α))
    (hp : p ∈ FindPuzzles diffT cosF pi clusters) :
    ∃ ly lx, ly ∈ clusters ∧ lx ∈ clusters ∧
      ((cosF (ly.getD 0 (defaultLine α)).theta > cosF (lx.getD 0 (defaultLine α)).theta ∧
          p = (ly, lx)) ∨
        (¬ cosF (ly.getD 0 (defaultLine α)).theta > cosF (lx.getD 0 (defaultLine α)).theta ∧
          p = (lx, ly))) := by
  unfold FindPuzzles at hp
  split_ifs at hp with hlen
  · exact absurd hp (List.not_mem_nil p)
  · obtain ⟨y, hy, hp2⟩ := List.mem_flatMap.mp hp
    obtain ⟨x, hx, hsome⟩ := List.mem_filterMap.mp hp2
    have hy2 : y < clusters.length := List.mem_range.mp hy
    have hx2 : x < clusters.length := by
      obtain ⟨i, hi, rfl⟩ := List.mem_range'.mp hx
      omega
    have hmy : clusters.getD y [] ∈ clusters := by
      rw [List.getD_eq_getElem?_getD, List.getElem?_eq_getElem hy2, Option.getD_some]
      exact List.getElem_mem _
    have hmx : clusters.getD x [] ∈ clusters := by
      rw [List.getD_eq_getElem?_getD, List.getElem?_eq_getElem hx2, Option.getD_some]
      exact List.getElem_mem _
    simp only at hsome
    split_ifs at hsome with hdist hcos
    · obtain rfl := Option.some.inj hsome
      exact ⟨clusters.getD y [], clusters.getD x [], hmy, hmx, Or.inl ⟨hcos, rfl⟩⟩
    · obtain rfl := Option.some.inj hsome
      exact ⟨clusters.getD y [], clusters.getD x [], hmy, hmx, Or.inr ⟨hcos, rfl⟩⟩

/-- C8: in every pair of axes `FindPuzzles` accepts, the first axis has
the (weakly) larger cosine of its leading theta — the more horizontal
axis comes first.  Stated for an arbitrary difference function and an
arbitrary cosine function; the real pipeline instantiates them with the
circular angle distance and `Real.cos`. -/
theorem findPuzzles_more_horizontal_first {α : Type} [LinearOrderedField α]
    (diffT : α → α → α) (cosF : α → α) (pi : α)
    (clusters : List (List (Line α))) (p : List (Line α) × List (Line α))
    (hp : p ∈ FindPuzzles diffT cosF pi clusters) :
    cosF ((p.2.getD 0 (defaultLine α)).theta) ≤ cosF ((p.1.getD 0 (defaultLine α)).theta) := by
  obtain ⟨ly, lx, -, -, hcase⟩ := mem_findPuzzles_cases diffT cosF pi clusters p hp
  rcases hcase with ⟨hgt, rfl⟩ | ⟨hle, rfl⟩
  · exact le_of_lt hgt
  · exact not_lt.mp hle

/-- A simple stand-in difference function for concrete witnesses. -/
def qDiff (a b : ℚ) : ℚ := b - a

/-- A simple strictly decreasing stand-in for the cosine on the angles
used by the witnesses. -/
def qCos (t : ℚ) : ℚ := -t

/-- A horizontal-axis candidate (theta 0) over `ℚ`. -/
def axisA : List (Line ℚ) := [{ theta := 0, rho := 0 }]

/-- A vertical-axis candidate (theta 1, a quarter turn for `pi = 2`)
over `ℚ`. -/
def axisB : List (Line ℚ) := [{ theta := 1, rho := 0 }]

theorem findPuzzles_witness_eval :
    FindPuzzles qDiff qCos 2 [axisA, axisB] = [(axisA, axisB)] := by
  have h0 : List.range 2 = [0, 1] := rfl
  have h1 : List.range' 1 1 = [1] := rfl
  have h2 : List.range' 2 0 = [] := rfl
  simp only [FindPuzzles, List.length_cons, List.length_nil]
  norm_num [h0, h1, h2, qDiff, qCos, axisA, axisB, defaultLine, List.getD,
    List.flatMap_cons, List.flatMap_nil, List.filterMap_cons, List.filterMap_nil]

/-- C8 witness: the concrete pair `(axisA, axisB)` over `ℚ` with `pi = 2`
and the stand-in cosine. -/
theorem findPuzzles_more_horizontal_first_witness :
    ((axisA, axisB) ∈ FindPuzzles qDiff qCos 2 [axisA, axisB]) ∧
      qCos (((axisA, axisB).2.getD 0 (defaultLine ℚ)).theta) ≤
        qCos (((axisA, axisB).1.getD 0 (defaultLine ℚ)).theta) := by
  have hmem : (axisA, axisB) ∈ FindPuzzles qDiff qCos 2 [axisA, axisB] := by
    rw [findPuzzles_witness_eval]
    exact List.mem_singleton_self _
  exact ⟨hmem, findPuzzles_more_horizontal_first qDiff qCos 2 [axisA, axisB] (axisA, axisB) hmem⟩

/-- C1: the contract of `PuzzleFinder::Find`.  It fails — handing back
`(false, pts)` — when the accumulator has no signal, when fewer than two
candidate axes exist, or when no roughly orthogonal pair was found
(`puzzleLines.empty()`); and whenever it succeeds the result is exactly
the four fully populated corner points obtained by intersecting the
boundary lines (indexes 0 and 3) of the two 4-line axes of the first
puzzle, in the fixed order (axis2 index 0, then 3) crossed with
(axis1 index 0, then 3). -/
theorem find_contract (targetWidth targetHeight : Nat) (img : Image)
    (pts : List (Point ℝ)) :
    (allZeroImage img →
      PuzzleFinder.Find targetWidth targetHeight img pts = (false, pts)) ∧
    ((FindPossiblePuzzleLines (ClusterizeLinesByTheta circularAngleDistance Real.pi
        (FindLinesR targetWidth targetHeight img))).length < 2 →
      PuzzleFinder.Find targetWidth targetHeight img pts = (false, pts)) ∧
    (FindPuzzles circularAngleDistance Real.cos Real.pi
        (FindPossiblePuzzleLines (ClusterizeLinesByTheta circularAngleDistance Real.pi
          (FindLinesR targetWidth targetHeight img))) = [] →
      PuzzleFinder.Find targetWidth targetHeight img pts = (false, pts)) ∧
    (∀ res : List (Point ℝ),
      PuzzleFinder.Find targetWidth targetHeight img pts = (true, res) →
      ∃ axes rest,
        FindPuzzles circularAngleDistance Real.cos Real.pi
          (FindPossiblePuzzleLines (ClusterizeLinesByTheta circularAngleDistance Real.pi
            (FindLinesR targetWidth targetHeight img))) = axes :: rest ∧
        axes.1.length = 4 ∧ axes.2.length = 4 ∧
        res = [IntersectLines (axes.1.getD 0 (defaultLine ℝ)) (axes.2.getD 0 (defaultLine ℝ)),
               IntersectLines (axes.1.getD 3 (defaultLine ℝ)) (axes.2.getD 0 (defaultLine ℝ)),
               IntersectLines (axes.1.getD 0 (defaultLine ℝ)) (axes.2.getD 3 (defaultLine ℝ)),
               IntersectLines (axes.1.getD 3 (defaultLine ℝ)) (axes.2.getD 3 (defaultLine ℝ))] ∧
        res.length = 4) := by
  refine ⟨?_, ?_, ?_, ?_⟩
  · intro hz
    exact findG_of_allZero _ _ _ _ _ _ _ img pts hz
  · intro hlen
    exact findG_puzzles_nil _ _ _ _ _ _ _ _ _ (findPuzzles_of_short _ _ _ _ hlen)
  · intro hemp
    exact findG_puzzles_nil _ _ _ _ _ _ _ _ _ hemp
  · intro res hres
    rcases hpz : FindPuzzles circularAngleDistance Real.cos Real.pi
        (FindPossiblePuzzleLines (ClusterizeLinesByTheta circularAngleDistance Real.pi
          (FindLinesG Real.pi hypotR targetWidth targetHeight img))) with _ | ⟨axes, rest⟩
    · rw [PuzzleFinder.Find, findG_puzzles_nil _ _ _ _ _ _ _ _ _ hpz] at hres
      exact absurd (Prod.mk.injEq .. ▸ hres).1 (by simp)
    · rw [PuzzleFinder.Find, findG_puzzles_cons _ _ _ _ _ _ _ _ _ _ _ hpz] at hres
      have hres2 := (Prod.mk.injEq .. ▸ hres).2
      have haxes : axes ∈ FindPuzzles circularAngleDistance Real.cos Real.pi
          (FindPossiblePuzzleLines (ClusterizeLinesByTheta circularAngleDistance Real.pi
            (FindLinesG Real.pi hypotR targetWidth targetHeight img))) := by
        rw [hpz]; exact List.mem_cons_self _ _
      obtain ⟨ly, lx, hly, hlx, hcase⟩ :=
        mem_findPuzzles_cases _ _ _ _ _ haxes
      have hlen1 : axes.1.length = 4 ∧ axes.2.length = 4 := by
        rcases hcase with ⟨-, rfl⟩ | ⟨-, rfl⟩
        · exact ⟨length_of_mem_findPossiblePuzzleLines _ _ hly,
            length_of_mem_findPossiblePuzzleLines _ _ hlx⟩
        · exact ⟨length_of_mem_findPossiblePuzzleLines _ _ hlx,
            length_of_mem_findPossiblePuzzleLines _ _ hly⟩
      refine ⟨axes, rest, hpz, hlen1.1, hlen1.2, hres2.symm, ?_⟩
      rw [← hres2]
      rfl

/-- C1 witness: the all-zero accumulator makes `Find` fail and leave the
(empty) caller list untouched. -/
theorem find_contract_witness :
    PuzzleFinder.Find 1 1 imgZero [] = (false, []) :=
  (find_contract 1 1 imgZero []).1 (by decide)

/-! ## Claim C6: cluster exclusivity -/

theorem addLineToClusters_flatten {α : Type} [LinearOrderedField α] [FloorRing α]
    (diffT : α → α → α) (pi : α) (clusters : List (List (Line α))) (l : Line α) :
    ∃ b, (b = l ∨ b = twinLine pi l) ∧
      (addLineToClusters diffT pi clusters l).flatten.Perm (clusters.flatten ++ [b]) := by
  induction clusters with
  | nil => exact ⟨l, Or.inl rfl, by simp [addLineToClusters]⟩
  | cons c rest ih =>
    unfold addLineToClusters
    split_ifs with h1 h2
    · refine ⟨l, Or.inl rfl, ?_⟩
      rw [List.flatten_cons, List.flatten_cons, List.append_assoc, List.append_assoc]
      exact (@List.perm_append_comm _ [l] rest.flatten).append_left c
    · refine ⟨twinLine pi l, Or.inr rfl, ?_⟩
      rw [List.flatten_cons, List.flatten_cons, List.append_assoc, List.append_assoc]
      exact (@List.perm_append_comm _ [twinLine pi l] rest.flatten).append_left c
    · obtain ⟨b, hb, hperm⟩ := ih
      refine ⟨b, hb, ?_⟩
      rw [List.flatten_cons, List.flatten_cons, List.append_assoc]
      exact hperm.append_left c

theorem clusterize_fold_perm {α : Type} [LinearOrderedField α] [FloorRing α]
    (diffT : α → α → α) (pi : α) (lines : List (Line α)) :
    ∀ clusters : List (List (Line α)),
      ∃ reps : List (Line α),
        List.Forall₂ (fun a b => b = a ∨ b = twinLine pi a) lines reps ∧
        (lines.foldl (addLineToClusters diffT pi) clusters).flatten.Perm
          (clusters.flatten ++ reps) := by
  induction lines with
  | nil => intro clusters; exact ⟨[], List.Forall₂.nil, by simp⟩
  | cons l t ih =>
    intro clusters
    obtain ⟨b, hb, hperm⟩ := addLineToClusters_flatten diffT pi clusters l
    obtain ⟨reps, hf, hp2⟩ := ih (addLineToClusters diffT pi clusters l)
    refine ⟨b :: reps, List.Forall₂.cons hb hf, ?_⟩
    rw [List.foldl_cons]
    exact hp2.trans (by simpa using hperm.append_right reps)

/-- C6: clustering preserves every input line exactly once — the lines
stored across all clusters are, up to permutation, one representative
per input line, each either the line itself or its angle-flipped twin
(theta + pi mod 2 pi, rho negated); consequently the total number of
clustered lines equals the number of input lines.  Stated for an
arbitrary difference function; the real pipeline instantiates the
circular angle distance. -/
theorem clusterize_each_line_exactly_once {α : Type} [LinearOrderedField α]
    [FloorRing α] (diffT : α → α → α) (pi : α) (lines : List (Line α)) :
    (∃ reps : List (Line α),
      List.Forall₂ (fun a b => b = a ∨ b = twinLine pi a) lines reps ∧
      (ClusterizeLinesByTheta diffT pi lines).flatten.Perm reps) ∧
    ((ClusterizeLinesByTheta diffT pi lines).map List.length).sum = lines.length := by
  obtain ⟨reps, hf, hp⟩ := clusterize_fold_perm diffT pi lines []
  have hp2 : (ClusterizeLinesByTheta diffT pi lines).flatten.Perm reps := by
    rw [ClusterizeLinesByTheta]
    simpa using hp
  refine ⟨⟨reps, hf, hp2⟩, ?_⟩
  rw [← List.length_flatten, hp2.length_eq, hf.length_eq]

/-! ## Claim C7: the evenly-spaced subset search -/

/-- The acceptance condition of lines 205-227, read as in the spec: the
pattern selects exactly 4 lines and each of the three consecutive rho
gaps is within 15 of `range / 3`. -/
def acceptPattern {α : Type} [LinearOrderedField α] (sorted : List (Line α))
    (x : Nat) : Prop :=
  popCount32 x = 4 ∧
    |(lineOfBit sorted x 1).rho - (lineOfBit sorted x 0).rho - rangeOfPattern sorted x / 3| < 15 ∧
    |(lineOfBit sorted x 2).rho - (lineOfBit sorted x 1).rho - rangeOfPattern sorted x / 3| < 15 ∧
    |(lineOfBit sorted x 3).rho - (lineOfBit sorted x 2).rho - rangeOfPattern sorted x / 3| < 15

instance acceptPatternDec {α : Type} [LinearOrderedField α] (sorted : List (Line α))
    (x : Nat) : Decidable (acceptPattern sorted x) := by
  unfold acceptPattern
  infer_instance

/-- The largest range over the accepted patterns of the enumeration,
floored at the initial running best 0 (line 195). -/
def bestRangeSpec {α : Type} [LinearOrderedField α] (sorted : List (Line α))
    (patterns : List Nat) : α :=
  patterns.foldl
    (fun m x => if acceptPattern sorted x then max m (rangeOfPattern sorted x) else m) 0

/-- The four lines the scan keeps, read as in the (amended) spec: the
last accepted pattern of the enumeration whose range attains
`bestRangeSpec` (none when no accepted pattern reaches the floor 0). -/
def keptSpec {α : Type} [LinearOrderedField α] (sorted : List (Line α))
    (patterns : List Nat) : List (Line α) :=
  match patterns.reverse.find? (fun x =>
      decide (acceptPattern sorted x) &&
        decide (bestRangeSpec sorted patterns ≤ rangeOfPattern sorted x)) with
  | some x => [lineOfBit sorted x 0, lineOfBit sorted x 1, lineOfBit sorted x 2,
      lineOfBit sorted x 3]
  | none => []

theorem bestRangeSpec_append {α : Type} [LinearOrderedField α] (sorted : List (Line α))
    (xs : List Nat) (x : Nat) :
    bestRangeSpec sorted (xs ++ [x]) =
      if acceptPattern sorted x then
        max (bestRangeSpec sorted xs) (rangeOfPattern sorted x)
      else bestRangeSpec sorted xs := by
  unfold bestRangeSpec
  rw [List.foldl_append, List.foldl_cons, List.foldl_nil]

theorem stepEvenly_of_not_accept {α : Type} [LinearOrderedField α]
    (sorted : List (Line α)) (s : α × List (Line α)) (x : Nat)
    (hacc : ¬ acceptPattern sorted x) : stepEvenly sorted s x = s := by
  unfold stepEvenly
  by_cases h4 : popCount32 x ≠ 4
  · rw [if_pos h4]
  · rw [if_neg h4]
    dsimp only
    split_ifs with hr hg
    · rfl
    · exact absurd
        (show acceptPattern sorted x from ⟨not_not.mp h4, hg.1, hg.2.1, hg.2.2⟩) hacc
    · rfl

theorem stepEvenly_of_accept_low {α : Type} [LinearOrderedField α]
    (sorted : List (Line α)) (s : α × List (Line α)) (x : Nat)
    (hacc : acceptPattern sorted x) (hlt : rangeOfPattern sorted x < s.1) :
    stepEvenly sorted s x = s := by
  unfold stepEvenly
  rw [if_neg (by simp [hacc.1])]
  dsimp only
  have hlt2 : (lineOfBit sorted x 3).rho - (lineOfBit sorted x 0).rho < s.1 := hlt
  rw [if_pos hlt2]

theorem stepEvenly_of_accept {α : Type} [LinearOrderedField α]
    (sorted : List (Line α)) (s : α × List (Line α)) (x : Nat)
    (hacc : acceptPattern sorted x) (hge : s.1 ≤ rangeOfPattern sorted x) :
    stepEvenly sorted s x =
      (rangeOfPattern sorted x,
        [lineOfBit sorted x 0, lineOfBit sorted x 1, lineOfBit sorted x 2,
          lineOfBit sorted x 3]) := by
  unfold stepEvenly
  rw [if_neg (by simp [hacc.1])]
  dsimp only
  have hlt2 : ¬ ((lineOfBit sorted x 3).rho - (lineOfBit sorted x 0).rho < s.1) :=
    not_lt.mpr hge
  rw [if_neg hlt2]
  exact if_pos ⟨hacc.2.1, hacc.2.2.1, hacc.2.2.2⟩

/-- The subset scan of lines 195-232, characterised: the final state is
the maximal accepted range (floored at 0) together with the lines of the
last accepted pattern attaining it. -/
theorem foldl_stepEvenly_eq {α : Type} [LinearOrderedField α]
    (sorted : List (Line α)) (patterns : List Nat) :
    patterns.foldl (stepEvenly sorted) ((0 : α), ([] : List (Line α))) =
      (bestRangeSpec sorted patterns, keptSpec sorted patterns) := by
  induction patterns using List.reverseRecOn with
  | nil => rfl
  | append_singleton xs x ih =>
    rw [List.foldl_append, ih, List.foldl_cons, List.foldl_nil]
    by_cases hacc : acceptPattern sorted x
    · by_cases hlt : rangeOfPattern sorted x < bestRangeSpec sorted xs
      · rw [stepEvenly_of_accept_low sorted _ x hacc hlt]
        have hbest : bestRangeSpec sorted (xs ++ [x]) = bestRangeSpec sorted xs := by
          rw [bestRangeSpec_append, if_pos hacc, max_eq_left hlt.le]
        have hkept : keptSpec sorted (xs ++ [x]) = keptSpec sorted xs := by
          unfold keptSpec
          simp only [hbest, List.reverse_append, List.reverse_cons, List.reverse_nil,
            List.nil_append, List.singleton_append]
          rw [List.find?_cons_of_neg _ (by simp [hacc, not_le.mpr hlt])]
        rw [hbest, hkept]
      · push_neg at hlt
        rw [stepEvenly_of_accept sorted _ x hacc hlt]
        have hbest : bestRangeSpec sorted (xs ++ [x]) = rangeOfPattern sorted x := by
          rw [bestRangeSpec_append, if_pos hacc, max_eq_right hlt]
        have hkept : keptSpec sorted (xs ++ [x]) =
            [lineOfBit sorted x 0, lineOfBit sorted x 1, lineOfBit sorted x 2,
              lineOfBit sorted x 3] := by
          unfold keptSpec
          simp only [hbest, List.reverse_append, List.reverse_cons, List.reverse_nil,
            List.nil_append, List.singleton_append]
          rw [List.find?_cons_of_pos _ (by simp [hacc])]
        rw [hbest, hkept]
    · rw [stepEvenly_of_not_accept sorted _ x hacc]
      have hbest : bestRangeSpec sorted (xs ++ [x]) = bestRangeSpec sorted xs := by
        rw [bestRangeSpec_append, if_neg hacc]
      have hkept : keptSpec sorted (xs ++ [x]) = keptSpec sorted xs := by
        unfold keptSpec
        simp only [hbest, List.reverse_append, List.reverse_cons, List.reverse_nil,
          List.nil_append, List.singleton_append]
        rw [List.find?_cons_of_neg _ (by simp [hacc])]
      rw [hbest, hkept]

theorem findEvenlySpaced_eq_keptSpec {α : Type} [LinearOrderedField α]
    (c : List (Line α)) :
    findEvenlySpaced c =
      keptSpec (sortByAbsRho c) (List.range (finalSubset c.length + 1)) := by
  unfold findEvenlySpaced
  dsimp only
  rw [foldl_stepEvenly_eq]

theorem le_bestRangeSpec_init {α : Type} [LinearOrderedField α]
    (sorted : List (Line α)) (l : List Nat) :
    ∀ a : α, a ≤ l.foldl
      (fun m x => if acceptPattern sorted x then max m (rangeOfPattern sorted x) else m) a := by
  induction l with
  | nil => intro a; exact le_refl a
  | cons y ys ih =>
    intro a
    rw [List.foldl_cons]
    refine le_trans ?_ (ih _)
    split_ifs with h
    · exact le_max_left a _
    · exact le_refl a

/-- Every accepted pattern's range is bounded by `bestRangeSpec`: the
kept combination really has the largest range among the accepted ones. -/
theorem rangeOfPattern_le_bestRangeSpec {α : Type} [LinearOrderedField α]
    (sorted : List (Line α)) (patterns : List Nat) (x : Nat) (hx : x ∈ patterns)
    (hacc : acceptPattern sorted x) :
    rangeOfPattern sorted x ≤ bestRangeSpec sorted patterns := by
  unfold bestRangeSpec
  generalize (0 : α) = a
  induction patterns generalizing a with
  | nil => exact absurd hx (List.not_mem_nil x)
  | cons y ys ih =>
    rw [List.foldl_cons]
    rcases List.mem_cons.mp hx with rfl | hmem
    · refine le_trans ?_ (le_bestRangeSpec_init sorted ys _)
      rw [if_pos hacc]
      exact le_max_right a _
    · exact ih hmem _

/-- C7 (amended): `FindPossiblePuzzleLines`, characterised.  Clusters
with fewer than 4 or more than 32 members never produce a candidate
axis.  Within a qualifying cluster, sorted ascending by absolute rho, a
pattern is accepted iff it selects 4 lines whose three consecutive rho
gaps each differ from `range / 3` by less than 15
(`acceptPattern`); the combination kept is the one of the *last*
enumerated accepted pattern whose range attains the maximum accepted
range (floored at the initial best 0), and a qualifying cluster with no
such pattern contributes nothing. -/
theorem findPossiblePuzzleLines_characterization {α : Type} [LinearOrderedField α]
    (clusters : List (List (Line α))) :
    FindPossiblePuzzleLines clusters = clusters.filterMap (fun c =>
      if c.length < 4 then none
      else if 32 < c.length then none
      else
        let kept := keptSpec (sortByAbsRho c) (List.range (finalSubset c.length + 1))
        if kept.isEmpty then none else some kept) := by
  unfold FindPossiblePuzzleLines
  congr 1
  funext c
  rw [findEvenlySpaced_eq_keptSpec]

/-- The tie-breaking cluster: five parallel lines whose 4-line subsets
`{0, 30, 60, 90}` (bit pattern 27) and `{0, 33, 60, 90}` (bit pattern
29) are both accepted with the same range 90. -/
def c5 : List (Line ℚ) :=
  [{ theta := 0, rho := 0 }, { theta := 0, rho := 30 }, { theta := 0, rho := 33 },
    { theta := 0, rho := 60 }, { theta := 0, rho := 90 }]

theorem sortByAbsRho_c5 : sortByAbsRho c5 = c5 := by
  norm_num [c5, sortByAbsRho, insertByAbsRho, abs_of_nonneg]

theorem foldl_stepEvenly_skip {α : Type} [LinearOrderedField α]
    (sorted : List (Line α)) (l : List Nat)
    (h : ∀ x ∈ l, popCount32 x ≠ 4) :
    ∀ s : α × List (Line α), l.foldl (stepEvenly sorted) s = s := by
  induction l with
  | nil => intro s; rfl
  | cons a t ih =>
    intro s
    rw [List.foldl_cons]
    have ha : stepEvenly sorted s a = s := by
      unfold stepEvenly
      rw [if_pos (h a (List.mem_cons_self a t))]
    rw [ha]
    exact ih (fun x hx => h x (List.mem_cons_of_mem a hx)) s

theorem accept_c5_27 : acceptPattern c5 27 := by
  refine ⟨by decide, ?_, ?_, ?_⟩ <;>
    · rw [rangeOfPattern]
      simp only [lineOfBit, show getSetBitIndexes 27 = [0, 1, 3, 4] from by decide]
      norm_num [c5, List.getD]

theorem accept_c5_29 : acceptPattern c5 29 := by
  refine ⟨by decide, ?_, ?_, ?_⟩ <;>
    · rw [rangeOfPattern]
      simp only [lineOfBit, show getSetBitIndexes 29 = [0, 2, 3, 4] from by decide]
      norm_num [c5, List.getD]

theorem notAccept_c5_15 : ¬ acceptPattern c5 15 := by
  intro h
  have h2 := h.2.2.1
  rw [rangeOfPattern] at h2
  simp only [lineOfBit, show getSetBitIndexes 15 = [0, 1, 2, 3] from by decide] at h2
  norm_num [c5, List.getD] at h2

theorem notAccept_c5_23 : ¬ acceptPattern c5 23 := by
  intro h
  have h2 := h.2.2.1
  rw [rangeOfPattern] at h2
  simp only [lineOfBit, show getSetBitIndexes 23 = [0, 1, 2, 4] from by decide] at h2
  norm_num [c5, List.getD] at h2

theorem notAccept_c5_30 : ¬ acceptPattern c5 30 := by
  intro h
  have h2 := h.2.1
  rw [rangeOfPattern] at h2
  simp only [lineOfBit, show getSetBitIndexes 30 = [1, 2, 3, 4] from by decide] at h2
  norm_num [c5, List.getD] at h2

theorem range_c5_27 : rangeOfPattern c5 27 = 90 := by
  rw [rangeOfPattern]
  simp only [lineOfBit, show getSetBitIndexes 27 = [0, 1, 3, 4] from by decide]
  norm_num [c5, List.getD]

theorem range_c5_29 : rangeOfPattern c5 29 = 90 := by
  rw [rangeOfPattern]
  simp only [lineOfBit, show getSetBitIndexes 29 = [0, 2, 3, 4] from by decide]
  norm_num [c5, List.getD]

theorem range31_chunks :
    List.range 31 =
      [0, 1, 2, 3, 4, 5, 6, 7, 8, 9, 10, 11, 12, 13, 14] ++
        ([15] ++ ([16, 17, 18, 19, 20, 21, 22] ++
          ([23] ++ ([24, 25, 26] ++ ([27] ++ ([28] ++ ([29] ++ [30]))))))) := by
  decide

theorem lines_c5_27 :
    [lineOfBit c5 27 0, lineOfBit c5 27 1, lineOfBit c5 27 2, lineOfBit c5 27 3] =
      [{ theta := 0, rho := 0 }, { theta := 0, rho := 30 }, { theta := 0, rho := 60 },
        { theta := 0, rho := 90 }] := rfl

theorem lines_c5_29 :
    [lineOfBit c5 29 0, lineOfBit c5 29 1, lineOfBit c5 29 2, lineOfBit c5 29 3] =
      [{ theta := 0, rho := 0 }, { theta := 0, rho := 33 }, { theta := 0, rho := 60 },
        { theta := 0, rho := 90 }] := rfl

theorem findEvenlySpaced_c5 :
    findEvenlySpaced c5 =
      [{ theta := 0, rho := 0 }, { theta := 0, rho := 33 }, { theta := 0, rho := 60 },
        { theta := 0, rho := 90 }] := by
  have e15 : stepEvenly c5 ((0 : ℚ), ([] : List (Line ℚ))) 15 = ((0 : ℚ), []) :=
    stepEvenly_of_not_accept c5 _ 15 notAccept_c5_15
  have e23 : stepEvenly c5 ((0 : ℚ), ([] : List (Line ℚ))) 23 = ((0 : ℚ), []) :=
    stepEvenly_of_not_accept c5 _ 23 notAccept_c5_23
  have e27 : stepEvenly c5 ((0 : ℚ), ([] : List (Line ℚ))) 27 =
      ((90 : ℚ), [{ theta := 0, rho := 0 }, { theta := 0, rho := 30 },
        { theta := 0, rho := 60 }, { theta := 0, rho := 90 }]) := by
    rw [stepEvenly_of_accept c5 _ 27 accept_c5_27 (by norm_num [range_c5_27])]
    rw [range_c5_27, lines_c5_27]
  have e28 : stepEvenly c5 ((90 : ℚ), [{ theta := 0, rho := 0 }, { theta := 0, rho := 30 },
      { theta := 0, rho := 60 }, { theta := 0, rho := 90 }]) 28 =
      ((90 : ℚ), [{ theta := 0, rho := 0 }, { theta := 0, rho := 30 },
        { theta := 0, rho := 60 }, { theta := 0, rho := 90 }]) :=
    stepEvenly_of_not_accept c5 _ 28 (fun h => absurd h.1 (by decide))
  have e29 : stepEvenly c5 ((90 : ℚ), [{ theta := 0, rho := 0 }, { theta := 0, rho := 30 },
      { theta := 0, rho := 60 }, { theta := 0, rho := 90 }]) 29 =
      ((90 : ℚ), [{ theta := 0, rho := 0 }, { theta := 0, rho := 33 },
        { theta := 0, rho := 60 }, { theta := 0, rho := 90 }]) := by
    rw [stepEvenly_of_accept c5 _ 29 accept_c5_29 (by norm_num [range_c5_29])]
    rw [range_c5_29, lines_c5_29]
  have e30 : stepEvenly c5 ((90 : ℚ), [{ theta := 0, rho := 0 }, { theta := 0, rho := 33 },
      { theta := 0, rho := 60 }, { theta := 0, rho := 90 }]) 30 =
      ((90 : ℚ), [{ theta := 0, rho := 0 }, { theta := 0, rho := 33 },
        { theta := 0, rho := 60 }, { theta := 0, rho := 90 }]) :=
    stepEvenly_of_not_accept c5 _ 30 notAccept_c5_30
  unfold findEvenlySpaced
  dsimp only
  rw [sortByAbsRho_c5, show finalSubset c5.length + 1 = 31 from by decide, range31_chunks]
  simp only [List.foldl_append, List.foldl_cons, List.foldl_nil,
    foldl_stepEvenly_skip c5 [0, 1, 2, 3, 4, 5, 6, 7, 8, 9, 10, 11, 12, 13, 14] (by decide),
    foldl_stepEvenly_skip c5 [16, 17, 18, 19, 20, 21, 22] (by decide),
    foldl_stepEvenly_skip c5 [24, 25, 26] (by decide),
    e15, e23, e27, e28, e29, e30]

theorem findPossiblePuzzleLines_c5 :
    FindPossiblePuzzleLines [c5] =
      [[{ theta := 0, rho := 0 }, { theta := 0, rho := 33 }, { theta := 0, rho := 60 },
        { theta := 0, rho := 90 }]] := by
  unfold FindPossiblePuzzleLines
  rw [List.filterMap_cons]
  simp only [findEvenlySpaced_c5, show ¬ (c5.length < 4) from by decide,
    show ¬ (32 < c5.length) from by decide, if_false, List.filterMap_nil]
  rfl

/-- C7 (counterexample): on the five-line cluster `c5` the bit patterns
27 and 29 are both accepted with the equal range 90, pattern 27 is
enumerated first, yet the code keeps the combination of pattern 29
(middle line rho 33, not 30): among equal-range accepted combinations
the last one found is kept, because line 217 skips only combinations
whose range is strictly below the running best. -/
theorem evenSpacing_tie_keeps_last_counterexample :
    FindPossiblePuzzleLines [c5] =
        [[{ theta := 0, rho := 0 }, { theta := 0, rho := 33 }, { theta := 0, rho := 60 },
          { theta := 0, rho := 90 }]] ∧
      FindPossiblePuzzleLines [c5] ≠
        [[{ theta := 0, rho := 0 }, { theta := 0, rho := 30 }, { theta := 0, rho := 60 },
          { theta := 0, rho := 90 }]] ∧
      acceptPattern c5 27 ∧ acceptPattern c5 29 ∧
      rangeOfPattern c5 27 = rangeOfPattern c5 29 ∧
      lineOfBit c5 27 1 = { theta := 0, rho := 30 } ∧
      lineOfBit c5 29 1 = { theta := 0, rho := 33 } ∧ (27 : Nat) < 29 := by
  refine ⟨findPossiblePuzzleLines_c5, ?_, accept_c5_27, accept_c5_29, ?_, rfl, rfl, by decide⟩
  · rw [findPossiblePuzzleLines_c5]
    intro h
    have h2 := (List.cons.inj h).1
    have h3 := (List.cons.inj h2).2
    have h4 := (List.cons.inj h3).1
    have h5 := congrArg Line.rho h4
    norm_num at h5
  · rw [range_c5_27, range_c5_29]
